import Mathlib

set_option maxHeartbeats 1000000
set_option maxRecDepth 4000

/-!
Shallow embedding of the contact-extraction core of the repository
(`src/utils/scraping/extrair_contatos.py` together with the upsert in
`src/pages/6_💡_Enriquecimento.py`).

A parsed HTML document is modelled as a forest of `Node`s: a text node
carries its string, an element carries its tag name, its `href` attribute,
its `class` attribute (modelled as a single optional string) and its
children.  BeautifulSoup operations used by the source are modelled on
this tree: `get_text()` concatenates every descendant string,
`get_text(" ", strip=True)` joins the stripped non-empty descendant
strings with a single space, `find_all` lists matching elements in
document (pre)order, and `tag.string` follows BeautifulSoup's rule of
descending through unique children.

The pre-compiled regular expressions of the source are modelled directly
as executable matching functions with the exact greedy/backtracking
semantics of Python `re` on the concrete patterns involved.
-/

/-- A node of the parsed document: a text node, or an element with a tag
name, an optional `href` attribute, an optional `class` attribute and a
list of children. -/
inductive Node where
  | text : String → Node
  | elem : String → Option String → Option String → List Node → Node

mutual

/-- All descendant strings of a node, in document order (the strings
BeautifulSoup's `get_text` traverses). -/
def nodeTexts : Node → List String
  | .text s => [s]
  | .elem _ _ _ cs => nodeTextsList cs

def nodeTextsList : List Node → List String
  | [] => []
  | n :: ns => nodeTexts n ++ nodeTextsList ns

end

mutual

/-- Every element of a subtree in document (pre)order, the node itself
included when it is an element; text nodes contribute nothing. -/
def nodeElems : Node → List Node
  | .text _ => []
  | .elem t h c cs => .elem t h c cs :: nodeElemsList cs

def nodeElemsList : List Node → List Node
  | [] => []
  | n :: ns => nodeElems n ++ nodeElemsList ns

end

/-- BeautifulSoup's `tag.string`: the unique descendant string reached by
descending through single children, `none` as soon as a node has zero or
several children. -/
def nodeString : Node → Option String
  | .text s => some s
  | .elem _ _ _ [c] => nodeString c
  | .elem _ _ _ _ => none

/-- Membership of a string in a list, as Python's `in` on a list. -/
def memB : List String → String → Bool
  | [], _ => false
  | a :: as, x => if a = x then true else memB as x

/-- `soup.find_all([t1, t2, ...])`: all elements whose tag is in the
list, in document order. -/
def findAllTags (tags : List String) (page : List Node) : List Node :=
  (nodeElemsList page).filter (fun n =>
    match n with
    | .text _ => false
    | .elem t _ _ _ => memB tags t)

/-- `soup.find_all('a', href=True)` reduced to the hrefs the source reads
from it, in document order. -/
def anchorHrefs (page : List Node) : List String :=
  (nodeElemsList page).filterMap (fun n =>
    match n with
    | .elem "a" (some h) _ _ => some h
    | _ => none)

/-- Case-sensitive list prefix test. -/
def listPfx : List Char → List Char → Bool
  | [], _ => true
  | _ :: _, [] => false
  | p :: ps, c :: cs => if p = c then listPfx ps cs else false

/-- Case-sensitive substring test (`needle` occurs somewhere in the
second argument). -/
def listSub (needle : List Char) : List Char → Bool
  | [] => needle.isEmpty
  | c :: t => listPfx needle (c :: t) || listSub needle t

/-- `pat` occurs as a substring of `hay` (both plain strings). -/
def hasSubstr (hay pat : String) : Bool :=
  listSub pat.toList hay.toList

/-- Prefix test of an already-lowercase pattern against arbitrary-case
text, as a `re.IGNORECASE` literal match. -/
def lcPfx : List Char → List Char → Bool
  | [], _ => true
  | _ :: _, [] => false
  | p :: ps, c :: cs => if p = c.toLower then lcPfx ps cs else false

/-- Concatenation of a list of strings (Python `str.join` with an empty
separator, as `get_text()` uses). -/
def strJoin : List String → String
  | [] => ""
  | s :: rest => s ++ strJoin rest

/-- `str.lower()`: lowercase every character. -/
def strToLower (s : String) : String :=
  String.mk (s.toList.map Char.toLower)

/-- `str.strip()`: drop leading and trailing whitespace. -/
def strTrim (s : String) : String :=
  String.mk (((s.toList.dropWhile Char.isWhitespace).reverse.dropWhile
    Char.isWhitespace).reverse)

/-- `str.startswith(pfx)`. -/
def strStartsWith (s pfx : String) : Bool :=
  listPfx pfx.toList s.toList

def strIntercalateAux (sep : String) : List String → String
  | [] => ""
  | t :: ts => sep ++ t ++ strIntercalateAux sep ts

/-- `sep.join(parts)`. -/
def strIntercalate (sep : String) : List String → String
  | [] => ""
  | s :: rest => s ++ strIntercalateAux sep rest

/-- Left-to-right non-overlapping replacement of every occurrence of a
non-empty pattern, as Python `str.replace`; the fuel starts above the
text length and is never exhausted since every step consumes at least
one character. -/
def replaceAllAux (pat sub : List Char) : Nat → List Char → List Char
  | 0, l => l
  | _ + 1, [] => []
  | fuel + 1, c :: cs =>
    if listPfx pat (c :: cs) then sub ++ replaceAllAux pat sub fuel ((c :: cs).drop pat.length)
    else c :: replaceAllAux pat sub fuel cs

/-- `s.replace(pat, sub)` for a non-empty pattern. -/
def strReplace (s pat sub : String) : String :=
  String.mk (replaceAllAux pat.toList sub.toList (s.toList.length + 1) s.toList)

/-- Number of maximal non-whitespace runs seen so far; the flag records
whether the previous character was inside a run. -/
def tokenCountAux : List Char → Bool → Nat
  | [], _ => 0
  | c :: cs, inTok =>
    if c.isWhitespace then tokenCountAux cs false
    else (if inTok then 0 else 1) + tokenCountAux cs true

/-- Number of whitespace-separated tokens, as Python `str.split()`
followed by `len`. -/
def tokenCount (s : String) : Nat :=
  tokenCountAux s.toList false

/-- `soup.get_text()` on the whole document: concatenation of every
string, with no separator and no stripping. -/
def pageText (page : List Node) : String :=
  strJoin (nodeTextsList page)

/-- `element.get_text(" ", strip=True)`: strip each descendant string,
drop the ones that become empty, join the rest with one space. -/
def getTextSep (n : Node) : String :=
  strIntercalate " " (((nodeTexts n).map strTrim).filter (fun s => !s.isEmpty))

/-- The character class kept by `re.sub(r'[^\d+]', '', s)`: digits and
the plus sign. -/
def digitOrPlus (c : Char) : Bool :=
  c.isDigit || decide (c = '+')

/-- `re.sub(r'[^\d+]', '', s)`: drop every character that is not a digit
or a plus sign. -/
def normalizePhone (s : String) : String :=
  String.mk (s.toList.filter digitOrPlus)

/-- The character class `[+\d\s\-\(\)]` of the WhatsApp and phone
patterns. -/
def isPhoneClassChar (c : Char) : Bool :=
  decide (c = '+') || c.isDigit || c.isWhitespace ||
    decide (c = '-') || decide (c = '(') || decide (c = ')')

/-- The character class `[\s:]` of the labeled phone pattern. -/
def isSepColon (c : Char) : Bool :=
  c.isWhitespace || decide (c = ':')

/-- The character class `[\s\-]` of the shaped phone pattern. -/
def isSepDash (c : Char) : Bool :=
  c.isWhitespace || decide (c = '-')

/-- The last of the first `k` characters of `s`, as a one-element list
(used for the backtracking step of `\s*([...]+)` when the group can only
take the final whitespace character). -/
def lastWsp (s : List Char) (k : Nat) : List Char :=
  match (s.take k).reverse with
  | [] => []
  | w :: _ => [w]

/-- Matching of `\s*([+\d\s\-\(\)]+)` at the start of `s` with Python's
greedy backtracking: `\s*` first takes the whole whitespace run; if the
following character is in the class the group is the maximal class run
from there; otherwise `\s*` gives one character back and the group is
that single whitespace character; no match when no class character is
available at all. -/
def waMatchAt (s : List Char) : Option (List Char) :=
  let k := (s.takeWhile Char.isWhitespace).length
  match s.drop k with
  | [] => if k = 0 then none else some (lastWsp s k)
  | c :: _ =>
    if isPhoneClassChar c then some ((s.drop k).takeWhile isPhoneClassChar)
    else if k = 0 then none else some (lastWsp s k)

/-- `WHATSAPP_PATTERN.search(text).group(1)`: find the leftmost
case-insensitive occurrence of `WhatsApp:` that is followed by a
matchable phone-token, and return the captured token. -/
def waSearch : List Char → Option (List Char)
  | [] => none
  | c :: cs =>
    if lcPfx "whatsapp:".toList (c :: cs) then
      match waMatchAt ((c :: cs).drop 9) with
      | some g => some g
      | none => waSearch cs
    else waSearch cs

/-- Drop exactly `n` leading digits, failing when fewer are available. -/
def dropDigits : Nat → List Char → Option (List Char)
  | 0, s => some s
  | _ + 1, [] => none
  | n + 1, c :: cs => if c.isDigit then dropDigits n cs else none

/-- `[\s\-]?` then `\d{4}` of the shaped phone pattern, with the greedy
optional separator backtracking. -/
def bSep2 : List Char → Option (List Char)
  | [] => none
  | c :: cs =>
    if isSepDash c then (dropDigits 4 cs).orElse (fun _ => dropDigits 4 (c :: cs))
    else dropDigits 4 (c :: cs)

/-- `\d{4,5}` (greedy: five digits first) then the tail of the shaped
phone pattern. -/
def bD45 (s : List Char) : Option (List Char) :=
  ((dropDigits 5 s).bind bSep2).orElse (fun _ => (dropDigits 4 s).bind bSep2)

/-- `[\s\-]?` then `\d{4,5}...` of the shaped phone pattern. -/
def bSep1 : List Char → Option (List Char)
  | [] => none
  | c :: cs =>
    if isSepDash c then (bD45 cs).orElse (fun _ => bD45 (c :: cs))
    else bD45 (c :: cs)

/-- `\)?` then `[\s\-]?\d{4,5}...` of the shaped phone pattern. -/
def bClose : List Char → Option (List Char)
  | [] => none
  | c :: cs =>
    if c = ')' then (bSep1 cs).orElse (fun _ => bSep1 (c :: cs))
    else bSep1 (c :: cs)

/-- `\d{2,3}` (greedy: three digits first) then the tail of the shaped
phone pattern. -/
def bD23 (s : List Char) : Option (List Char) :=
  ((dropDigits 3 s).bind bClose).orElse (fun _ => (dropDigits 2 s).bind bClose)

/-- The second alternative of `PHONE_PATTERN`,
`(\(?\d{2,3}\)?[\s\-]?\d{4,5}[\s\-]?\d{4})`, matched at the start of
`s`; returns the captured text and the remaining suffix. -/
def branchB (s : List Char) : Option (String × List Char) :=
  let res :=
    match s with
    | [] => none
    | c :: cs =>
      if c = '(' then (bD23 cs).orElse (fun _ => bD23 (c :: cs))
      else bD23 (c :: cs)
  match res with
  | some rest => some (String.mk (s.take (s.length - rest.length)), rest)
  | none => none

/-- The `[\s:]*([+\d\s\-\(\)]{8,})` tail of the labeled phone
alternative: `[\s:]*` takes `k` characters greedily and gives characters
back one at a time until the group can take at least eight class
characters. -/
def branchASep : Nat → List Char → Option (String × List Char)
  | 0, rest =>
    let g := rest.takeWhile isPhoneClassChar
    if 8 ≤ g.length then some (String.mk g, rest.drop g.length) else none
  | k + 1, rest =>
    let g := (rest.drop (k + 1)).takeWhile isPhoneClassChar
    if 8 ≤ g.length then some (String.mk g, (rest.drop (k + 1)).drop g.length)
    else branchASep k rest

/-- One label alternative of the labeled phone pattern: consume the
label (already checked) and match the separator/group tail. -/
def branchALabel (labLen : Nat) (s : List Char) : Option (String × List Char) :=
  let rest := s.drop labLen
  branchASep ((rest.takeWhile isSepColon).length) rest

/-- The first alternative of `PHONE_PATTERN`,
`(?:tel|phone|telefone|fone)[\s:]*([+\d\s\-\(\)]{8,})`, matched at the
start of `s`, trying the label alternatives in the pattern's order. -/
def branchA (s : List Char) : Option (String × List Char) :=
  (if lcPfx "tel".toList s then branchALabel 3 s else none).orElse (fun _ =>
  (if lcPfx "phone".toList s then branchALabel 5 s else none).orElse (fun _ =>
  (if lcPfx "telefone".toList s then branchALabel 8 s else none).orElse (fun _ =>
  (if lcPfx "fone".toList s then branchALabel 4 s else none))))

/-- A `PHONE_PATTERN` match attempt at the start of `s`: the two-group
tuple Python's `findall` yields (the unmatched alternative captures the
empty string) and the remaining suffix. -/
def phoneMatchAt (s : List Char) : Option ((String × String) × List Char) :=
  match branchA s with
  | some (g, rest) => some ((g, ""), rest)
  | none =>
    match branchB s with
    | some (g, rest) => some (("", g), rest)
    | none => none

/-- Left-to-right non-overlapping scan of `PHONE_PATTERN.findall`.  The
fuel starts at `length + 1`; every successful match consumes at least
ten characters and every failed position advances by one, so the fuel is
never exhausted. -/
def phoneFindallAux : Nat → List Char → List (String × String)
  | 0, _ => []
  | _ + 1, [] => []
  | fuel + 1, c :: cs =>
    match phoneMatchAt (c :: cs) with
    | some (tup, rest) => tup :: phoneFindallAux fuel rest
    | none => phoneFindallAux fuel cs

/-- `PHONE_PATTERN.findall(text)`. -/
def phoneFindall (t : String) : List (String × String) :=
  phoneFindallAux (t.toList.length + 1) t.toList

/-- The character class `[\w\.-]` of `EMAIL_PATTERN`. -/
def isEmailChar (c : Char) : Bool :=
  c.isAlphanum || decide (c = '_') || decide (c = '.') || decide (c = '-')

/-- An `EMAIL_PATTERN` (`[\w\.-]+@[\w\.-]+`) match attempt at the start
of `s`: maximal class run, a literal `@`, then another non-empty maximal
class run. -/
def emailMatchAt (s : List Char) : Option (String × List Char) :=
  let r1 := s.takeWhile isEmailChar
  if r1.isEmpty then none
  else
    match s.drop r1.length with
    | '@' :: rest2 =>
      let r2 := rest2.takeWhile isEmailChar
      if r2.isEmpty then none
      else some (String.mk (r1 ++ '@' :: r2), rest2.drop r2.length)
    | _ => none

/-- Left-to-right non-overlapping scan of `EMAIL_PATTERN.findall`, with
the same fuel discipline as the phone scan. -/
def emailFindallAux : Nat → List Char → List String
  | 0, _ => []
  | _ + 1, [] => []
  | fuel + 1, c :: cs =>
    match emailMatchAt (c :: cs) with
    | some (m, rest) => m :: emailFindallAux fuel rest
    | none => emailFindallAux fuel cs

/-- `EMAIL_PATTERN.findall(text)`. -/
def emailFindall (t : String) : List String :=
  emailFindallAux (t.toList.length + 1) t.toList

/-- Lookup in an association list with string keys (a Python `dict`
read; `none` models a raised `KeyError`). -/
def lookupKey {α : Type} : List (String × α) → String → Option α
  | [], _ => none
  | e :: es, k => if e.1 = k then some e.2 else lookupKey es k

/-- Write into an association list with string keys (a Python `dict`
assignment, and also the `ON CONFLICT ... DO UPDATE` upsert: replace the
value when the key exists, append a fresh entry otherwise). -/
def setKey {α : Type} : List (String × α) → String → α → List (String × α)
  | [], k, v => [(k, v)]
  | e :: es, k, v => if e.1 = k then (k, v) :: es else e :: setKey es k v

/-- Number of entries stored under a key. -/
def countKey {α : Type} (d : List (String × α)) (k : String) : Nat :=
  (d.filter (fun e => decide (e.1 = k))).length

/-- The record assembled by `extrair_contatos_estrategicos`. -/
structure Contatos where
  telefones : List String
  whatsapp : Option String
  emails : List String
  endereco : Option String
  redes_sociais : List (String × Option String)
deriving DecidableEq

/-- The default social-links dictionary built when no seed is supplied
(insertion order of the source literal). -/
def defaultRedes : List (String × Option String) :=
  [("linkedin", none), ("facebook", none), ("instagram", none), ("youtube", none)]

/-- The initial record of `extrair_contatos_estrategicos`; a supplied
seed replaces the default dictionary only when it is truthy (a non-empty
dict). -/
def initContatos (seed : Option (List (String × Option String))) : Contatos :=
  { telefones := [], whatsapp := none, emails := [], endereco := none,
    redes_sociais :=
      match seed with
      | some d => if d.isEmpty then defaultRedes else d
      | none => defaultRedes }

/-- `_extrair_whatsapp`: search the page text for the WhatsApp pattern;
on a match, store the deep link and append the normalized number to the
phone list (with no emptiness or duplicate guard). -/
def extrair_whatsapp (page : List Node) (c : Contatos) : Contatos :=
  match waSearch (pageText page).toList with
  | some g =>
    { c with
      whatsapp := some ("https://api.whatsapp.com/send?phone=" ++ normalizePhone (String.mk g)),
      telefones := c.telefones ++ [normalizePhone (String.mk g)] }
  | none => c

/-- The guarded phone append of `_extrair_telefones`: keep the number
only when it is non-empty and not already present. -/
def telPush (pn : String) (c : Contatos) : Contatos :=
  if pn.isEmpty then c
  else if memB c.telefones pn then c
  else { c with telefones := c.telefones ++ [pn] }

/-- One tuple component of a `findall` match: skipped when falsy,
normalized and pushed otherwise. -/
def telAdd (m : String) (c : Contatos) : Contatos :=
  if m.isEmpty then c else telPush (normalizePhone m) c

/-- The inner loop over the tuples of one element's `findall` result. -/
def telMatchesLoop : List (String × String) → Contatos → Contatos
  | [], c => c
  | (m1, m2) :: ms, c => telMatchesLoop ms (telAdd m2 (telAdd m1 c))

/-- The text pass of `_extrair_telefones` over `p`, `div`, `span`, `li`
elements. -/
def telTextLoop : List Node → Contatos → Contatos
  | [], c => c
  | e :: es, c => telTextLoop es (telMatchesLoop (phoneFindall (getTextSep e)) c)

/-- The `tel:` link pass of `_extrair_telefones` (the source strips
every occurrence of `tel:` via `str.replace`). -/
def telLinkAdd (href : String) (c : Contatos) : Contatos :=
  if strStartsWith href "tel:" then
    telPush (normalizePhone (strReplace href "tel:" "")) c
  else c

def telLinkLoop : List String → Contatos → Contatos
  | [], c => c
  | h :: hs, c => telLinkLoop hs (telLinkAdd h c)

/-- `_extrair_telefones`. -/
def extrair_telefones (page : List Node) (c : Contatos) : Contatos :=
  telLinkLoop (anchorHrefs page) (telTextLoop (findAllTags ["p", "div", "span", "li"] page) c)

/-- The text-pass e-mail append of `_extrair_emails` (deduplicated, with
no emptiness guard in the source). -/
def emailPushT (e : String) (c : Contatos) : Contatos :=
  if memB c.emails e then c else { c with emails := c.emails ++ [e] }

def emailMatchesLoop : List String → Contatos → Contatos
  | [], c => c
  | m :: ms, c => emailMatchesLoop ms (emailPushT m c)

/-- The text pass of `_extrair_emails` over `a`, `p`, `div`, `span`
elements. -/
def emailTextLoop : List Node → Contatos → Contatos
  | [], c => c
  | e :: es, c => emailTextLoop es (emailMatchesLoop (emailFindall (getTextSep e)) c)

/-- The `mailto:` pass of `_extrair_emails`: strip the scheme, trim, and
keep non-empty unseen addresses. -/
def mailtoAdd (href : String) (c : Contatos) : Contatos :=
  if strStartsWith href "mailto:" then
    let em := strTrim (strReplace href "mailto:" "")
    if em.isEmpty then c
    else if memB c.emails em then c
    else { c with emails := c.emails ++ [em] }
  else c

def mailtoLoop : List String → Contatos → Contatos
  | [], c => c
  | h :: hs, c => mailtoLoop hs (mailtoAdd h c)

/-- `_extrair_emails`. -/
def extrair_emails (page : List Node) (c : Contatos) : Contatos :=
  mailtoLoop (anchorHrefs page) (emailTextLoop (findAllTags ["a", "p", "div", "span"] page) c)

/-- The `REDES_SOCIAIS` pattern table, each regex given as the list of
its literal alternatives. -/
def REDES_SOCIAIS : List (String × List String) :=
  [("facebook", ["facebook.com"]), ("instagram", ["instagram.com"]),
   ("linkedin", ["linkedin.com"]), ("youtube", ["youtube.com", "youtu.be"])]

/-- Python truthiness of a stored social-link value: `None` and the
empty string are falsy. -/
def isFalsy : Option String → Bool
  | none => true
  | some s => s.isEmpty

/-- One platform check of `_extrair_redes_sociais` on one (lowercased)
href: on a pattern match, read the current entry (a missing key is a
`KeyError`, modelled as `Except.error` carrying the key) and fill it
when falsy. -/
def processRede (hl : String) (d : List (String × Option String))
    (rede : String) (pats : List String) :
    Except String (List (String × Option String)) :=
  if pats.any (fun p => hasSubstr hl p) then
    match lookupKey d rede with
    | none => .error rede
    | some v => if isFalsy v then .ok (setKey d rede (some hl)) else .ok d
  else .ok d

/-- The inner loop of `_extrair_redes_sociais` over the platform table
for one href. -/
def redesInner : List (String × List String) → String →
    List (String × Option String) → Except String (List (String × Option String))
  | [], _, d => .ok d
  | (r, ps) :: rest, hl, d =>
    match processRede hl d r ps with
    | .error e => .error e
    | .ok d2 => redesInner rest hl d2

/-- The outer loop of `_extrair_redes_sociais` over all anchors, each
href lowercased first. -/
def redesAnchorLoop : List String → List (String × Option String) →
    Except String (List (String × Option String))
  | [], d => .ok d
  | h :: hs, d =>
    match redesInner REDES_SOCIAIS (strToLower h) d with
    | .error e => .error e
    | .ok d2 => redesAnchorLoop hs d2

/-- `_extrair_redes_sociais`. -/
def extrair_redes_sociais (page : List Node) (c : Contatos) : Except String Contatos :=
  match redesAnchorLoop (anchorHrefs page) c.redes_sociais with
  | .error e => .error e
  | .ok d => .ok { c with redes_sociais := d }

/-- Whether the nine leading characters form the `\d{5}-\d{3}` postal
code shape. -/
def hasCepAt : List Char → Bool
  | a :: b :: c :: d :: e :: f :: g :: h :: i :: _ =>
    a.isDigit && b.isDigit && c.isDigit && d.isDigit && e.isDigit &&
      decide (f = '-') && g.isDigit && h.isDigit && i.isDigit
  | _ => false

/-- `\d{5}-\d{3}` occurs somewhere in the string. -/
def hasCep : List Char → Bool
  | [] => false
  | c :: t => hasCepAt (c :: t) || hasCep t

/-- `ADDRESS_KEYWORDS.search(s)`:
`RUA|rua|avenida|av\.|bairro|cep|\d{5}-\d{3}` case-insensitively. -/
def addressKwSearch (s : String) : Bool :=
  hasSubstr (strToLower s) "rua" || hasSubstr (strToLower s) "avenida" ||
    hasSubstr (strToLower s) "av." || hasSubstr (strToLower s) "bairro" ||
    hasSubstr (strToLower s) "cep" || hasCep s.toList

/-- The `string=ADDRESS_KEYWORDS` element filter of strategy 1. -/
def addrStrFilter (n : Node) : Bool :=
  match n with
  | .text _ => false
  | .elem t _ _ _ =>
    memB ["p", "div", "li", "ul"] t &&
      (match nodeString n with
       | some s => addressKwSearch s
       | none => false)

/-- The `class_=re.compile(r'address|endereco|local', re.I)` fallback
filter of strategy 1. -/
def addrClsFilter (n : Node) : Bool :=
  match n with
  | .text _ => false
  | .elem t _ cls _ =>
    memB ["p", "div", "li"] t &&
      (match cls with
       | some c =>
         hasSubstr (strToLower c) "address" || hasSubstr (strToLower c) "endereco" ||
           hasSubstr (strToLower c) "local"
       | none => false)

/-- The strategy-1 element list of `_extrair_enderecos`: keyword-bearing
elements, or the class-based fallback when none exist. -/
def addressElems (page : List Node) : List Node :=
  let e1 := (nodeElemsList page).filter addrStrFilter
  if e1.isEmpty then (nodeElemsList page).filter addrClsFilter else e1

/-- The Elementor span filter of strategy 2. -/
def elementorFilter (n : Node) : Bool :=
  match n with
  | .text _ => false
  | .elem t _ cls _ =>
    if t = "span" then
      match cls with
      | some c => hasSubstr (strToLower c) "elementor-icon-list-text"
      | none => false
    else false

def elementorSpans (page : List Node) : List Node :=
  (nodeElemsList page).filter elementorFilter

/-- `_validar_endereco`: at least one digit, at least one address
keyword, and at least five whitespace-separated tokens. -/
def validar_endereco (texto : String) : Bool :=
  (texto.toList.any Char.isDigit) &&
    ((["rua", "av", "avenida", "bairro", "cep"]).any
      (fun t => hasSubstr (strToLower texto) t)) &&
    decide (5 ≤ tokenCount texto)

/-- Strategy-1 accumulation of validated address candidates. -/
def endLoop1 : List Node → List String → List String
  | [], acc => acc
  | e :: es, acc =>
    endLoop1 es (if validar_endereco (getTextSep e) then acc ++ [getTextSep e] else acc)

/-- Strategy-2 accumulation: validated Elementor texts not already
collected. -/
def endLoop2 : List Node → List String → List String
  | [], acc => acc
  | e :: es, acc =>
    endLoop2 es
      (if validar_endereco (getTextSep e) && !(memB acc (getTextSep e)) then
        acc ++ [getTextSep e]
      else acc)

/-- `_extrair_enderecos`: the first collected candidate becomes the
address, `None` otherwise. -/
def extrair_enderecos (page : List Node) (c : Contatos) : Contatos :=
  { c with endereco := (endLoop2 (elementorSpans page) (endLoop1 (addressElems page) [])).head? }

/-- The texts the address extractor examines, in examination order. -/
def addressCandidates (page : List Node) : List String :=
  (addressElems page).map getTextSep ++ (elementorSpans page).map getTextSep

/-- `extrair_contatos_estrategicos`: the five extraction passes in
source order; an uncaught `KeyError` of the social-links pass aborts the
whole extraction. -/
def extrair_contatos_estrategicos (page : List Node)
    (seed : Option (List (String × Option String))) : Except String Contatos :=
  match extrair_redes_sociais page
      (extrair_emails page (extrair_telefones page (extrair_whatsapp page (initContatos seed)))) with
  | .error e => .error e
  | .ok c => .ok (extrair_enderecos page c)

/-- Projection of a successful extraction (the error case yields the
empty record; used only to state theorems without an existential). -/
def getOk (r : Except String Contatos) : Contatos :=
  match r with
  | .ok c => c
  | .error _ => initContatos none

/-- The error taxonomy of `requests.exceptions.RequestException` that
`baixar_html` catches. -/
inductive RequestErrorKind where
  | connectionError
  | timeoutError
  | httpOther
deriving DecidableEq

/-- A resolved HTTP response: final status code and body text. -/
structure HttpResponse where
  status : Nat
  body : String
deriving DecidableEq

/-- `baixar_html`: a raised `RequestException` is caught and reported as
`None`; `raise_for_status` raises (and the handler returns `None`)
exactly for status codes 400–599; otherwise the body is returned. -/
def baixar_html (r : Except RequestErrorKind HttpResponse) : Option String :=
  match r with
  | .error _ => none
  | .ok resp => if 400 ≤ resp.status ∧ resp.status < 600 then none else some resp.body

/-- The failure condition of a fetch: a raised request error, or a
status in the `raise_for_status` range. -/
def fetchFailed (r : Except RequestErrorKind HttpResponse) : Bool :=
  match r with
  | .error _ => true
  | .ok resp => decide (400 ≤ resp.status ∧ resp.status < 600)

/-- One stored row of the `dados_enriquecidos` table (the timestamp
column, refreshed on every write, is not part of the contact fields). -/
structure DadosRow where
  razao_social : String
  telefones : List String
  whatsapp : Option String
  emails : List String
  endereco : Option String
  redes_sociais : List (String × Option String)
deriving DecidableEq

/-- The database errors `psycopg2.Error` covers in `save_contacts`. -/
inductive PgError where
  | constraintViolation
  | connectivityLoss
deriving DecidableEq

/-- The row the upsert statement writes from its parameters. -/
def mkRow (razao : String) (c : Contatos) : DadosRow :=
  { razao_social := razao, telefones := c.telefones, whatsapp := c.whatsapp,
    emails := c.emails, endereco := c.endereco, redes_sociais := c.redes_sociais }

/-- `DatabaseManager.save_contacts`: without a connection the write is
refused; a raised database error is caught, the transaction rolled back
(the store is unchanged) and `False` returned; otherwise the single
atomic upsert statement replaces or inserts the row keyed by the CNPJ
and `True` is returned. -/
def save_contacts (connected : Bool) (execOutcome : Option PgError)
    (db : List (String × DadosRow)) (cnpj razao : String) (contatos : Contatos) :
    Bool × List (String × DadosRow) :=
  if !connected then (false, db)
  else
    match execOutcome with
    | some _ => (false, db)
    | none => (true, setKey db cnpj (mkRow razao contatos))

/-- Pure characterisation of how one platform's stored value evolves
over the anchor list: the first matching (lowercased) href fills a falsy
slot, later matches never overwrite. -/
def platFold (ps : List String) : List String → Option String → Option String
  | [], v => v
  | h :: hs, v =>
    platFold ps hs
      (if isFalsy v && ps.any (fun p => hasSubstr (strToLower h) p) then some (strToLower h) else v)

/-- The well-formedness the spec asserts of a normalized phone string:
only digits, except for at most one leading plus sign. -/
def isNormalizedPhone (s : String) : Bool :=
  match s.toList with
  | [] => true
  | c :: cs => (c.isDigit || decide (c = '+')) && cs.all Char.isDigit

/-- A token whose only plus sign, if any, is its first character. -/
def plusOnlyLeading (s : String) : Bool :=
  (s.toList.drop 1).all (fun c => !decide (c = '+'))

/-- The string contains at least one digit. -/
def hasDigitB (s : String) : Bool :=
  s.toList.any Char.isDigit

/-! ### Concrete pages used as counterexamples and witnesses -/

/-- A page whose whole visible text is `WhatsApp: (11) 99999-9999`. -/
def cexPage1 : List Node := [Node.text "WhatsApp: (11) 99999-9999"]

/-- A page whose WhatsApp token normalizes to the empty string. -/
def cexPage2 : List Node := [Node.text "WhatsApp: -x"]

/-- A page with a labeled phone containing an interior plus sign. -/
def cexPage3 : List Node := [Node.elem "p" none none [Node.text "tel: 1+2345678"]]

/-- A page with two facebook anchors, the first one in upper case. -/
def cexPage4 : List Node :=
  [Node.elem "a" (some "https://FACEBOOK.COM/a") none [],
   Node.elem "a" (some "https://facebook.com/b") none []]

/-- A page whose single address candidate has fewer than five tokens. -/
def cexPage5 : List Node := [Node.elem "p" none none [Node.text "Rua 1"]]

/-- A page with an instagram anchor, paired with a seed missing the
`instagram` key. -/
def cexPage6 : List Node := [Node.elem "a" (some "https://instagram.com/x") none []]

/-- A seed dictionary missing three of the four platform keys. -/
def cexSeed6 : List (String × Option String) := [("facebook", none)]

/-! ### Association-list lemmas -/

theorem memB_iff (l : List String) (x : String) : memB l x = true ↔ x ∈ l := by
  induction l with
  | nil => simp [memB]
  | cons a as ih =>
    by_cases h : a = x
    · subst h; simp [memB]
    · simp only [memB, if_neg h, ih, List.mem_cons]
      constructor
      · exact Or.inr
      · rintro (rfl | hx)
        · exact absurd rfl h
        · exact hx

theorem lookupKey_setKey_self {α : Type} (db : List (String × α)) (k : String) (v : α) :
    lookupKey (setKey db k v) k = some v := by
  induction db with
  | nil => simp [setKey, lookupKey]
  | cons e es ih =>
    by_cases h : e.1 = k <;> simp [setKey, h, lookupKey, ih]

theorem lookupKey_setKey_ne {α : Type} (db : List (String × α)) (k q : String) (v : α)
    (h : q ≠ k) : lookupKey (setKey db k v) q = lookupKey db q := by
  have hkq : ¬(k = q) := fun hh => h hh.symm
  induction db with
  | nil => simp [setKey, lookupKey, hkq]
  | cons e es ih =>
    obtain ⟨ek, ev⟩ := e
    by_cases he : ek = k
    · subst he
      simp [setKey, lookupKey, hkq]
    · simp [setKey, he, lookupKey, ih]

theorem lookupKey_setKey_isSome {α : Type} (db : List (String × α)) (k q : String) (v : α)
    (h : (lookupKey db q).isSome = true) : (lookupKey (setKey db k v) q).isSome = true := by
  by_cases hq : q = k
  · subst hq; simp [lookupKey_setKey_self]
  · rw [lookupKey_setKey_ne db k q v hq]; exact h

theorem lookupKey_setKey_none {α : Type} (db : List (String × α)) (k q : String) (v : α)
    (hk : (lookupKey db k).isSome = true) (h : lookupKey db q = none) :
    lookupKey (setKey db k v) q = none := by
  by_cases hq : q = k
  · subst hq; rw [h] at hk; simp at hk
  · rw [lookupKey_setKey_ne db k q v hq]; exact h

theorem setKey_idem {α : Type} (db : List (String × α)) (k : String) (v : α) :
    setKey (setKey db k v) k v = setKey db k v := by
  induction db with
  | nil => simp [setKey]
  | cons e es ih =>
    by_cases h : e.1 = k <;> simp [setKey, h, ih]

theorem countKey_eq_zero {α : Type} (db : List (String × α)) (k : String)
    (h : k ∉ db.map Prod.fst) : countKey db k = 0 := by
  induction db with
  | nil => simp [countKey]
  | cons e es ih =>
    simp only [List.map_cons, List.mem_cons] at h
    push_neg at h
    have h1 : ¬(e.1 = k) := fun hh => h.1 hh.symm
    simp only [countKey, List.filter_cons, h1, decide_eq_true_eq, if_neg h1]
    simpa [countKey] using ih h.2

theorem countKey_setKey {α : Type} (db : List (String × α)) (k : String) (v : α)
    (hnd : (db.map Prod.fst).Nodup) : countKey (setKey db k v) k = 1 := by
  induction db with
  | nil => simp [setKey, countKey]
  | cons e es ih =>
    simp only [List.map_cons, List.nodup_cons] at hnd
    by_cases h : e.1 = k
    · subst h
      have : countKey es e.1 = 0 := countKey_eq_zero es e.1 hnd.1
      simp only [setKey, if_pos rfl, countKey, List.filter_cons, decide_eq_true_eq]
      simpa [countKey] using this
    · simp only [setKey, if_neg h, countKey, List.filter_cons, decide_eq_true_eq, if_neg h]
      simpa [countKey] using ih hnd.2

/-! ### C6: fetch failure outcomes (`baixar_html`) -/

/-- C6 (corrected): `baixar_html` yields the distinct failure outcome
`none` exactly when the request raised or the final status is in the
`raise_for_status` range 400–599; any other response (1xx, 2xx, 3xx)
returns the body as success, and no fault propagates (the function is
total). -/
theorem fetch_failure_amended :
    (∀ r, (baixar_html r).isNone = fetchFailed r) ∧
    (∀ e, baixar_html (Except.error e) = none) ∧
    (∀ resp, baixar_html (Except.ok resp) =
      if fetchFailed (Except.ok resp) = true then none else some resp.body) := by
  refine ⟨fun r => ?_, fun e => rfl, fun resp => ?_⟩
  · cases r with
    | error e => rfl
    | ok resp =>
      by_cases h : 400 ≤ resp.status ∧ resp.status < 600 <;>
        simp [baixar_html, fetchFailed, h]
  · by_cases h : 400 ≤ resp.status ∧ resp.status < 600 <;>
      simp [baixar_html, fetchFailed, h]

/-- C6 counterexample: status 304 is not a success status, yet
`baixar_html` reports success with the body instead of a failure
outcome, so not every non-success status is reported as a failure. -/
theorem fetch_status_304_counterexample :
    baixar_html (Except.ok ⟨304, "body"⟩) = some "body" ∧ ¬(200 ≤ 304 ∧ 304 < 300) := by
  exact ⟨by decide, by decide⟩

/-! ### C7: persistence failure leaves the store unchanged -/

/-- C7 (confirmed): whenever the upsert fails (no connection, a
constraint violation, or connectivity loss), `save_contacts` reports the
distinct failure outcome `false` and the stored state is exactly the
prior state: no field of any row is written. -/
theorem save_contacts_failure_confirmed (connected : Bool) (e : PgError)
    (db : List (String × DadosRow)) (cnpj razao : String) (contatos : Contatos) :
    save_contacts connected (some e) db cnpj razao contatos = (false, db) := by
  cases connected <;> rfl

/-! ### C8: upsert idempotence -/

/-- C8 (confirmed): under the uniqueness constraint on the key column,
persisting the same record twice for the same CNPJ succeeds, leaves the
store exactly as after the first write, keeps exactly one row for that
CNPJ, and that row's contact fields equal the record. -/
theorem upsert_idempotent_confirmed (db : List (String × DadosRow)) (cnpj razao : String)
    (contatos : Contatos) (hnd : (db.map Prod.fst).Nodup) :
    save_contacts true none (save_contacts true none db cnpj razao contatos).2 cnpj razao contatos =
      (true, (save_contacts true none db cnpj razao contatos).2) ∧
    countKey (save_contacts true none db cnpj razao contatos).2 cnpj = 1 ∧
    lookupKey (save_contacts true none db cnpj razao contatos).2 cnpj =
      some (mkRow razao contatos) := by
  refine ⟨?_, ?_, ?_⟩
  · simp only [save_contacts, Bool.not_true, Bool.false_eq_true, if_false, setKey_idem]
  · simp only [save_contacts, Bool.not_true, Bool.false_eq_true, if_false]
    exact countKey_setKey db cnpj (mkRow razao contatos) hnd
  · simp only [save_contacts, Bool.not_true, Bool.false_eq_true, if_false]
    exact lookupKey_setKey_self db cnpj (mkRow razao contatos)

/-- Witness for C8 at the empty store. -/
theorem upsert_idempotent_confirmed_witness :
    (([] : List (String × DadosRow)).map Prod.fst).Nodup ∧
    (save_contacts true none (save_contacts true none [] "12345678000199" "ACME" (initContatos none)).2
        "12345678000199" "ACME" (initContatos none) =
      (true, (save_contacts true none [] "12345678000199" "ACME" (initContatos none)).2) ∧
    countKey (save_contacts true none [] "12345678000199" "ACME" (initContatos none)).2
        "12345678000199" = 1 ∧
    lookupKey (save_contacts true none [] "12345678000199" "ACME" (initContatos none)).2
        "12345678000199" = some (mkRow "ACME" (initContatos none))) :=
  ⟨by simp, upsert_idempotent_confirmed [] "12345678000199" "ACME" (initContatos none) (by simp)⟩

/-! ### C9: no malformed-identifier rejection before persisting -/

/-- C9 (code bug): the identifier `"123"` does not have the expected
fourteen digits, yet `save_contacts` performs the upsert anyway and
silently stores the malformed identifier; no validation happens before
the fetch or the persist. -/
theorem malformed_cnpj_stored_bug :
    "123".length ≠ 14 ∧
    save_contacts true none [] "123" "Empresa X" (initContatos none) =
      (true, [("123", mkRow "Empresa X" (initContatos none))]) := by
  exact ⟨by decide, rfl⟩

/-! ### String and list helpers -/

theorem string_eq_empty_of_toList_nil (p : String) (h : p.toList = []) : p = "" := by
  cases p with
  | mk data =>
    simp only [String.toList] at h
    subst h
    rfl

theorem string_mk_ne_empty (l : List Char) (h : l ≠ []) : String.mk l ≠ "" := by
  intro he
  exact h (by simpa using congrArg String.data he)

theorem nodup_append_single (l : List String) (a : String) (h : l.Nodup) (ha : a ∉ l) :
    (l ++ [a]).Nodup := by
  rw [List.nodup_append]
  exact ⟨h, List.nodup_singleton a, (List.disjoint_singleton).mpr ha⟩

theorem normalizePhone_chars (s : String) :
    (normalizePhone s).toList.all digitOrPlus = true := by
  have h : (normalizePhone s).toList = s.toList.filter digitOrPlus := rfl
  rw [h, List.all_eq_true]
  intro c hc
  exact (List.mem_filter.mp hc).2

/-! ### The phone passes extend the record monotonically -/

/-- What one phone-extraction step guarantees: every field other than
`telefones` is untouched, old phone entries survive, freedom from
duplicates is preserved, the digits-and-plus character discipline is
preserved, and no empty entry is introduced. -/
def telExtends (c c' : Contatos) : Prop :=
  c'.whatsapp = c.whatsapp ∧ c'.emails = c.emails ∧ c'.endereco = c.endereco ∧
  c'.redes_sociais = c.redes_sociais ∧
  (∀ x ∈ c.telefones, x ∈ c'.telefones) ∧
  (c.telefones.Nodup → c'.telefones.Nodup) ∧
  ((∀ t ∈ c.telefones, t.toList.all digitOrPlus = true) →
    ∀ t ∈ c'.telefones, t.toList.all digitOrPlus = true) ∧
  ("" ∈ c'.telefones → "" ∈ c.telefones)

theorem telExtends_refl (c : Contatos) : telExtends c c :=
  ⟨rfl, rfl, rfl, rfl, fun _ h => h, id, fun h => h, id⟩

theorem telExtends_trans {c1 c2 c3 : Contatos} (h12 : telExtends c1 c2)
    (h23 : telExtends c2 c3) : telExtends c1 c3 := by
  obtain ⟨a1, a2, a3, a4, a5, a6, a7, a8⟩ := h12
  obtain ⟨b1, b2, b3, b4, b5, b6, b7, b8⟩ := h23
  exact ⟨b1.trans a1, b2.trans a2, b3.trans a3, b4.trans a4,
    fun x hx => b5 x (a5 x hx), fun h => b6 (a6 h), fun h => b7 (a7 h),
    fun h => a8 (b8 h)⟩

theorem telPush_extends (pn : String) (c : Contatos)
    (hpn : pn.toList.all digitOrPlus = true) : telExtends c (telPush pn c) := by
  unfold telPush
  by_cases h1 : pn.isEmpty
  · simp only [h1, if_true]
    exact telExtends_refl c
  · simp only [h1, Bool.false_eq_true, if_false]
    by_cases h2 : memB c.telefones pn
    · simp only [h2, if_true]
      exact telExtends_refl c
    · simp only [h2, Bool.false_eq_true, if_false]
      have hnm : pn ∉ c.telefones := fun hm => h2 ((memB_iff _ _).mpr hm)
      have hne : pn ≠ "" := by
        intro he
        subst he
        simp [String.isEmpty] at h1
      refine ⟨rfl, rfl, rfl, rfl, ?_, ?_, ?_, ?_⟩
      · intro x hx
        exact List.mem_append_left _ hx
      · intro hnd
        exact nodup_append_single _ _ hnd hnm
      · intro hall t ht
        rcases List.mem_append.mp ht with ht | ht
        · exact hall t ht
        · rw [List.mem_singleton.mp ht]
          exact hpn
      · intro hmem
        rcases List.mem_append.mp hmem with hm | hm
        · exact hm
        · exact absurd (List.mem_singleton.mp hm).symm hne

theorem telAdd_extends (m : String) (c : Contatos) : telExtends c (telAdd m c) := by
  unfold telAdd
  by_cases h : m.isEmpty
  · simp only [h, if_true]
    exact telExtends_refl c
  · simp only [h, Bool.false_eq_true, if_false]
    exact telPush_extends _ c (normalizePhone_chars m)

theorem telLinkAdd_extends (href : String) (c : Contatos) :
    telExtends c (telLinkAdd href c) := by
  unfold telLinkAdd
  by_cases h : strStartsWith href "tel:" = true
  · simp only [h, if_true]
    exact telPush_extends _ c (normalizePhone_chars _)
  · simp only [h, Bool.false_eq_true, if_false]
    exact telExtends_refl c

theorem telMatchesLoop_extends (ms : List (String × String)) (c : Contatos) :
    telExtends c (telMatchesLoop ms c) := by
  induction ms generalizing c with
  | nil => exact telExtends_refl c
  | cons m ms ih =>
    obtain ⟨m1, m2⟩ := m
    exact telExtends_trans (telExtends_trans (telAdd_extends m1 c)
      (telAdd_extends m2 (telAdd m1 c))) (ih _)

theorem telTextLoop_extends (es : List Node) (c : Contatos) :
    telExtends c (telTextLoop es c) := by
  induction es generalizing c with
  | nil => exact telExtends_refl c
  | cons e es ih =>
    exact telExtends_trans (telMatchesLoop_extends _ c) (ih _)

theorem telLinkLoop_extends (hs : List String) (c : Contatos) :
    telExtends c (telLinkLoop hs c) := by
  induction hs generalizing c with
  | nil => exact telExtends_refl c
  | cons h hs ih =>
    exact telExtends_trans (telLinkAdd_extends h c) (ih _)

theorem extrair_telefones_extends (page : List Node) (c : Contatos) :
    telExtends c (extrair_telefones page c) :=
  telExtends_trans (telTextLoop_extends _ c) (telLinkLoop_extends _ _)

/-! ### The e-mail passes leave the other fields alone -/

/-- What one e-mail step guarantees: every field other than `emails` is
untouched, dedup freedom is preserved, and no empty entry appears. -/
def emailExtends (c c' : Contatos) : Prop :=
  c'.whatsapp = c.whatsapp ∧ c'.telefones = c.telefones ∧ c'.endereco = c.endereco ∧
  c'.redes_sociais = c.redes_sociais ∧
  (c.emails.Nodup → c'.emails.Nodup) ∧
  ("" ∈ c'.emails → "" ∈ c.emails)

theorem emailExtends_refl (c : Contatos) : emailExtends c c :=
  ⟨rfl, rfl, rfl, rfl, id, id⟩

theorem emailExtends_trans {c1 c2 c3 : Contatos} (h12 : emailExtends c1 c2)
    (h23 : emailExtends c2 c3) : emailExtends c1 c3 := by
  obtain ⟨a1, a2, a3, a4, a5, a6⟩ := h12
  obtain ⟨b1, b2, b3, b4, b5, b6⟩ := h23
  exact ⟨b1.trans a1, b2.trans a2, b3.trans a3, b4.trans a4,
    fun h => b5 (a5 h), fun h => a6 (b6 h)⟩

theorem emailPushT_extends (e : String) (c : Contatos) (he : e ≠ "") :
    emailExtends c (emailPushT e c) := by
  unfold emailPushT
  by_cases h : memB c.emails e
  · simp only [h, if_true]
    exact emailExtends_refl c
  · simp only [h, Bool.false_eq_true, if_false]
    have hnm : e ∉ c.emails := fun hm => h ((memB_iff _ _).mpr hm)
    refine ⟨rfl, rfl, rfl, rfl, ?_, ?_⟩
    · intro hnd
      exact nodup_append_single _ _ hnd hnm
    · intro hmem
      rcases List.mem_append.mp hmem with hm | hm
      · exact hm
      · exact absurd (List.mem_singleton.mp hm).symm he

theorem emailMatchAt_ne (s : List Char) (m : String) (rest : List Char)
    (h : emailMatchAt s = some (m, rest)) : m ≠ "" := by
  unfold emailMatchAt at h
  dsimp only at h
  split at h
  · exact absurd h (by simp)
  · split at h
    · split at h
      · exact absurd h (by simp)
      · simp only [Option.some.injEq, Prod.mk.injEq] at h
        rw [← h.1]
        apply string_mk_ne_empty
        simp
    · exact absurd h (by simp)

theorem emailFindallAux_ne (fuel : Nat) (s : List Char) (m : String)
    (h : m ∈ emailFindallAux fuel s) : m ≠ "" := by
  induction fuel generalizing s with
  | zero => simp [emailFindallAux] at h
  | succ fuel ih =>
    rcases s with _ | ⟨c, cs⟩
    · simp [emailFindallAux] at h
    · unfold emailFindallAux at h
      rcases hm : emailMatchAt (c :: cs) with _ | ⟨m0, rest⟩
      · rw [hm] at h
        exact ih cs h
      · rw [hm] at h
        rcases List.mem_cons.mp h with rfl | hmem
        · exact emailMatchAt_ne _ _ _ hm
        · exact ih rest hmem

theorem emailFindall_ne (t : String) (m : String) (h : m ∈ emailFindall t) : m ≠ "" :=
  emailFindallAux_ne _ _ m h

theorem emailMatchesLoop_extends (ms : List String) (c : Contatos)
    (hms : ∀ m ∈ ms, m ≠ "") : emailExtends c (emailMatchesLoop ms c) := by
  induction ms generalizing c with
  | nil => exact emailExtends_refl c
  | cons m ms ih =>
    exact emailExtends_trans (emailPushT_extends m c (hms m (List.mem_cons_self m ms)))
      (ih _ (fun x hx => hms x (List.mem_cons_of_mem m hx)))

theorem emailTextLoop_extends (es : List Node) (c : Contatos) :
    emailExtends c (emailTextLoop es c) := by
  induction es generalizing c with
  | nil => exact emailExtends_refl c
  | cons e es ih =>
    exact emailExtends_trans
      (emailMatchesLoop_extends _ c (fun m hm => emailFindall_ne _ m hm)) (ih _)

theorem mailtoAdd_extends (href : String) (c : Contatos) :
    emailExtends c (mailtoAdd href c) := by
  unfold mailtoAdd
  by_cases h : strStartsWith href "mailto:" = true
  · simp only [h, if_true]
    by_cases h1 : (strTrim (strReplace href "mailto:" "")).isEmpty = true
    · simp only [h1, if_true]
      exact emailExtends_refl c
    · simp only [h1, Bool.false_eq_true, if_false]
      by_cases h2 : memB c.emails (strTrim (strReplace href "mailto:" "")) = true
      · simp only [h2, if_true]
        exact emailExtends_refl c
      · simp only [h2, Bool.false_eq_true, if_false]
        refine ⟨rfl, rfl, rfl, rfl, ?_, ?_⟩
        · intro hnd
          exact nodup_append_single _ _ hnd
            (fun hm => h2 ((memB_iff _ _).mpr hm))
        · intro hmem
          rcases List.mem_append.mp hmem with hm | hm
          · exact hm
          · exfalso
            have he := (List.mem_singleton.mp hm).symm
            rw [he] at h1
            simp [String.isEmpty] at h1
  · simp only [h, Bool.false_eq_true, if_false]
    exact emailExtends_refl c

theorem mailtoLoop_extends (hs : List String) (c : Contatos) :
    emailExtends c (mailtoLoop hs c) := by
  induction hs generalizing c with
  | nil => exact emailExtends_refl c
  | cons h hs ih =>
    exact emailExtends_trans (mailtoAdd_extends h c) (ih _)

theorem extrair_emails_extends (page : List Node) (c : Contatos) :
    emailExtends c (extrair_emails page c) :=
  emailExtends_trans (emailTextLoop_extends _ c) (mailtoLoop_extends _ _)

/-! ### Field bookkeeping of the remaining passes -/

theorem extrair_whatsapp_redes (page : List Node) (c : Contatos) :
    (extrair_whatsapp page c).redes_sociais = c.redes_sociais := by
  unfold extrair_whatsapp
  rcases waSearch (pageText page).toList with _ | g <;> rfl

theorem extrair_whatsapp_endereco (page : List Node) (c : Contatos) :
    (extrair_whatsapp page c).endereco = c.endereco := by
  unfold extrair_whatsapp
  rcases waSearch (pageText page).toList with _ | g <;> rfl

theorem extrair_whatsapp_emails (page : List Node) (c : Contatos) :
    (extrair_whatsapp page c).emails = c.emails := by
  unfold extrair_whatsapp
  rcases waSearch (pageText page).toList with _ | g <;> rfl

theorem extrair_redes_sociais_ok (page : List Node) (c : Contatos) (c2 : Contatos)
    (h : extrair_redes_sociais page c = .ok c2) :
    c2.telefones = c.telefones ∧ c2.whatsapp = c.whatsapp ∧ c2.emails = c.emails ∧
    c2.endereco = c.endereco ∧
    redesAnchorLoop (anchorHrefs page) c.redes_sociais = .ok c2.redes_sociais := by
  unfold extrair_redes_sociais at h
  rcases hl : redesAnchorLoop (anchorHrefs page) c.redes_sociais with e | d
  · rw [hl] at h
    exact absurd h (by simp)
  · rw [hl] at h
    have hc2 : c2 = { c with redes_sociais := d } := by
      injection h with h2
      exact h2.symm
    subst hc2
    exact ⟨rfl, rfl, rfl, rfl, rfl⟩

theorem extrair_enderecos_fields (page : List Node) (c : Contatos) :
    (extrair_enderecos page c).telefones = c.telefones ∧
    (extrair_enderecos page c).whatsapp = c.whatsapp ∧
    (extrair_enderecos page c).emails = c.emails ∧
    (extrair_enderecos page c).redes_sociais = c.redes_sociais ∧
    (extrair_enderecos page c).endereco =
      (endLoop2 (elementorSpans page) (endLoop1 (addressElems page) [])).head? :=
  ⟨rfl, rfl, rfl, rfl, rfl⟩

/-! ### Social-link pass: per-step specifications -/

theorem processRede_self (hl : String) (d : List (String × Option String))
    (rede : String) (pats : List String) (v : Option String)
    (hv : lookupKey d rede = some v) :
    processRede hl d rede pats =
      .ok (if isFalsy v && pats.any (fun p => hasSubstr hl p) then
        setKey d rede (some hl) else d) := by
  by_cases hm : pats.any (fun p => hasSubstr hl p) = true
  · by_cases hf : isFalsy v = true
    · simp [processRede, hm, hv, hf]
    · simp only [Bool.not_eq_true] at hf
      simp [processRede, hm, hv, hf]
  · simp only [Bool.not_eq_true] at hm
    simp [processRede, hm, hv]

theorem processRede_ok_of_isSome (hl : String) (d : List (String × Option String))
    (rede : String) (pats : List String) (h : (lookupKey d rede).isSome = true) :
    ∃ d1, processRede hl d rede pats = .ok d1 := by
  obtain ⟨v, hv⟩ := Option.isSome_iff_exists.mp h
  rw [processRede_self hl d rede pats v hv]
  exact ⟨_, rfl⟩

theorem processRede_err (hl : String) (d : List (String × Option String))
    (rede : String) (pats : List String)
    (hm : pats.any (fun p => hasSubstr hl p) = true)
    (hn : lookupKey d rede = none) :
    processRede hl d rede pats = .error rede := by
  unfold processRede
  rw [if_pos hm, hn]

theorem processRede_ok_cases (hl : String) (d : List (String × Option String))
    (rede : String) (pats : List String) (d2 : List (String × Option String))
    (h : processRede hl d rede pats = .ok d2) :
    d2 = d ∨ ((lookupKey d rede).isSome = true ∧ d2 = setKey d rede (some hl)) := by
  rcases hv : lookupKey d rede with _ | v
  · by_cases hm : pats.any (fun p => hasSubstr hl p) = true
    · rw [processRede_err hl d rede pats hm hv] at h
      exact absurd h (by simp)
    · simp only [Bool.not_eq_true] at hm
      have hok : processRede hl d rede pats = .ok d := by
        simp [processRede, hm]
      rw [hok] at h
      injection h with h2
      exact Or.inl h2.symm
  · rw [processRede_self hl d rede pats v hv] at h
    injection h with h2
    by_cases hf : (isFalsy v && pats.any fun p => hasSubstr hl p) = true
    · rw [if_pos hf] at h2
      exact Or.inr ⟨by simp [hv], h2.symm⟩
    · rw [if_neg hf] at h2
      exact Or.inl h2.symm

theorem processRede_ok_none (hl : String) (d : List (String × Option String))
    (rede : String) (pats : List String) (d2 : List (String × Option String))
    (h : processRede hl d rede pats = .ok d2) (q : String)
    (hq : lookupKey d q = none) : lookupKey d2 q = none := by
  rcases processRede_ok_cases hl d rede pats d2 h with rfl | ⟨hs, rfl⟩
  · exact hq
  · exact lookupKey_setKey_none d rede q (some hl) hs hq

theorem processRede_ok_isSome (hl : String) (d : List (String × Option String))
    (rede : String) (pats : List String) (d2 : List (String × Option String))
    (h : processRede hl d rede pats = .ok d2) (q : String)
    (hq : (lookupKey d q).isSome = true) : (lookupKey d2 q).isSome = true := by
  rcases processRede_ok_cases hl d rede pats d2 h with rfl | ⟨hs, rfl⟩
  · exact hq
  · exact lookupKey_setKey_isSome d rede q (some hl) hq

theorem processRede_ok_other (hl : String) (d : List (String × Option String))
    (rede : String) (pats : List String) (d2 : List (String × Option String))
    (h : processRede hl d rede pats = .ok d2) (q : String) (hq : q ≠ rede) :
    lookupKey d2 q = lookupKey d q := by
  rcases processRede_ok_cases hl d rede pats d2 h with rfl | ⟨hs, rfl⟩
  · rfl
  · exact lookupKey_setKey_ne d rede q (some hl) hq

/-! ### Social-link pass: the platform loop -/

theorem redesInner_ok (plist : List (String × List String)) (hl : String)
    (d : List (String × Option String))
    (hall : ∀ rp ∈ plist, (lookupKey d rp.1).isSome = true) :
    ∃ d2, redesInner plist hl d = .ok d2 ∧
      (∀ q, (lookupKey d q).isSome = true → (lookupKey d2 q).isSome = true) ∧
      (∀ q, (∀ rp ∈ plist, q ≠ rp.1) → lookupKey d2 q = lookupKey d q) := by
  induction plist generalizing d with
  | nil => exact ⟨d, rfl, fun _ h => h, fun _ _ => rfl⟩
  | cons rp rest ih =>
    obtain ⟨r, ps⟩ := rp
    have hr : (lookupKey d r).isSome = true := hall (r, ps) (List.mem_cons_self _ _)
    obtain ⟨d1, hres⟩ := processRede_ok_of_isSome hl d r ps hr
    have hall1 : ∀ rp ∈ rest, (lookupKey d1 rp.1).isSome = true := fun rp hm =>
      processRede_ok_isSome hl d r ps d1 hres _ (hall rp (List.mem_cons_of_mem _ hm))
    obtain ⟨d2, hok, hmono, hother⟩ := ih d1 hall1
    refine ⟨d2, ?_, ?_, ?_⟩
    · unfold redesInner
      rw [hres]
      exact hok
    · intro q hq
      exact hmono q (processRede_ok_isSome hl d r ps d1 hres q hq)
    · intro q hq
      have h1 := processRede_ok_other hl d r ps d1 hres q (hq (r, ps) (List.mem_cons_self _ _))
      have h2 := hother q (fun rp hm => hq rp (List.mem_cons_of_mem _ hm))
      exact h2.trans h1

theorem redesInner_none_pres (plist : List (String × List String)) (hl : String)
    (d d1 : List (String × Option String)) (h : redesInner plist hl d = .ok d1)
    (q : String) (hq : lookupKey d q = none) : lookupKey d1 q = none := by
  induction plist generalizing d with
  | nil =>
    injection h with h2
    rw [← h2]
    exact hq
  | cons rp rest ih =>
    obtain ⟨r, ps⟩ := rp
    unfold redesInner at h
    rcases hres : processRede hl d r ps with e | dm
    · rw [hres] at h
      exact absurd h (by simp)
    · rw [hres] at h
      exact ih dm h (processRede_ok_none hl d r ps dm hres q hq)

theorem redesInner_at (plist : List (String × List String)) (hl : String)
    (d : List (String × Option String)) (k : String) (ps : List String) (v : Option String)
    (hnd : (plist.map Prod.fst).Nodup)
    (hmem : (k, ps) ∈ plist)
    (hall : ∀ rp ∈ plist, (lookupKey d rp.1).isSome = true)
    (hv : lookupKey d k = some v) :
    ∃ d2, redesInner plist hl d = .ok d2 ∧
      lookupKey d2 k =
        some (if isFalsy v && ps.any (fun p => hasSubstr hl p) then some hl else v) := by
  induction plist generalizing d with
  | nil => simp at hmem
  | cons rp rest ih =>
    obtain ⟨r, rps⟩ := rp
    simp only [List.map_cons, List.nodup_cons] at hnd
    rcases List.mem_cons.mp hmem with heq | htail
    · have h1 : k = r := congrArg Prod.fst heq
      have h2 : ps = rps := congrArg Prod.snd heq
      subst h1
      subst h2
      have hstep := processRede_self hl d k ps v hv
      rcases hcond : (isFalsy v && ps.any fun p => hasSubstr hl p) with _ | _
      · rw [hcond] at hstep
        simp only [Bool.false_eq_true, if_false] at hstep
        have hall1 : ∀ rp ∈ rest, (lookupKey d rp.1).isSome = true := fun rp hm =>
          hall rp (List.mem_cons_of_mem _ hm)
        obtain ⟨d2, hok, _, hother⟩ := redesInner_ok rest hl d hall1
        refine ⟨d2, ?_, ?_⟩
        · unfold redesInner
          rw [hstep]
          exact hok
        · have hkother : ∀ rp ∈ rest, k ≠ rp.1 := by
            intro rp hm hkr
            exact hnd.1 (by
              rw [hkr]
              exact List.mem_map_of_mem Prod.fst hm)
          rw [hother k hkother, hv]
          simp
      · rw [hcond] at hstep
        simp only [if_true] at hstep
        have hset : lookupKey (setKey d k (some hl)) k = some (some hl) :=
          lookupKey_setKey_self d k (some hl)
        have hall1 : ∀ rp ∈ rest, (lookupKey (setKey d k (some hl)) rp.1).isSome = true :=
          fun rp hm =>
            lookupKey_setKey_isSome d k rp.1 (some hl) (hall rp (List.mem_cons_of_mem _ hm))
        obtain ⟨d2, hok, _, hother⟩ := redesInner_ok rest hl (setKey d k (some hl)) hall1
        refine ⟨d2, ?_, ?_⟩
        · unfold redesInner
          rw [hstep]
          exact hok
        · have hkother : ∀ rp ∈ rest, k ≠ rp.1 := by
            intro rp hm hkr
            exact hnd.1 (by
              rw [hkr]
              exact List.mem_map_of_mem Prod.fst hm)
          rw [hother k hkother, hset]
          simp
    · have hrk : ¬(k = r) := by
        intro h
        subst h
        exact hnd.1 (List.mem_map_of_mem Prod.fst htail)
      have hr : (lookupKey d r).isSome = true := hall (r, rps) (List.mem_cons_self _ _)
      obtain ⟨d1, hres⟩ := processRede_ok_of_isSome hl d r rps hr
      have hall1 : ∀ rp ∈ rest, (lookupKey d1 rp.1).isSome = true := fun rp hm =>
        processRede_ok_isSome hl d r rps d1 hres _ (hall rp (List.mem_cons_of_mem _ hm))
      have hv1 : lookupKey d1 k = some v := by
        rw [processRede_ok_other hl d r rps d1 hres k hrk, hv]
      obtain ⟨d2, hok, hval⟩ := ih d1 hnd.2 htail hall1 hv1
      refine ⟨d2, ?_, hval⟩
      unfold redesInner
      rw [hres]
      exact hok

theorem redesInner_err_of (plist : List (String × List String)) (hl : String)
    (d : List (String × Option String))
    (hw : ∃ rp ∈ plist, rp.2.any (fun p => hasSubstr hl p) = true ∧ lookupKey d rp.1 = none) :
    ∃ e, redesInner plist hl d = .error e := by
  induction plist generalizing d with
  | nil => simp at hw
  | cons rp rest ih =>
    obtain ⟨r, ps⟩ := rp
    obtain ⟨wp, hwmem, hwmatch, hwnone⟩ := hw
    rcases List.mem_cons.mp hwmem with heq | htail
    · subst heq
      refine ⟨r, ?_⟩
      unfold redesInner
      rw [processRede_err hl d r ps hwmatch hwnone]
    · rcases hres : processRede hl d r ps with e | d1
      · refine ⟨e, ?_⟩
        unfold redesInner
        rw [hres]
      · obtain ⟨e, he⟩ := ih d1
          ⟨wp, htail, hwmatch, processRede_ok_none hl d r ps d1 hres _ hwnone⟩
        refine ⟨e, ?_⟩
        unfold redesInner
        rw [hres]
        exact he

/-! ### Social-link pass: the anchor loop -/

theorem redes_nodup : (REDES_SOCIAIS.map Prod.fst).Nodup := by decide

theorem redesAnchorLoop_at (hs : List String) (d : List (String × Option String))
    (k : String) (ps : List String) (v : Option String)
    (hmem : (k, ps) ∈ REDES_SOCIAIS)
    (hall : ∀ rp ∈ REDES_SOCIAIS, (lookupKey d rp.1).isSome = true)
    (hv : lookupKey d k = some v) :
    ∃ d2, redesAnchorLoop hs d = .ok d2 ∧ lookupKey d2 k = some (platFold ps hs v) := by
  induction hs generalizing d v with
  | nil => exact ⟨d, rfl, by simpa [platFold] using hv⟩
  | cons h hs ih =>
    obtain ⟨d1, hok1, hmono1, _⟩ := redesInner_ok REDES_SOCIAIS (strToLower h) d hall
    obtain ⟨d1x, hok1x, hval1⟩ :=
      redesInner_at REDES_SOCIAIS (strToLower h) d k ps v redes_nodup hmem hall hv
    rw [hok1] at hok1x
    injection hok1x with hd1
    subst hd1
    have hall1 : ∀ rp ∈ REDES_SOCIAIS, (lookupKey d1 rp.1).isSome = true := fun rp hm =>
      hmono1 _ (hall rp hm)
    obtain ⟨d2, hok2, hval2⟩ := ih d1 _ hall1 hval1
    refine ⟨d2, ?_, ?_⟩
    · unfold redesAnchorLoop
      rw [hok1]
      exact hok2
    · exact hval2

theorem redesAnchorLoop_err (hs : List String) (d : List (String × Option String))
    (hw : ∃ h ∈ hs, ∃ rp ∈ REDES_SOCIAIS,
      rp.2.any (fun p => hasSubstr (strToLower h) p) = true ∧ lookupKey d rp.1 = none) :
    ∃ e, redesAnchorLoop hs d = .error e := by
  induction hs generalizing d with
  | nil => simp at hw
  | cons h hs ih =>
    obtain ⟨h0, h0mem, hwrest⟩ := hw
    rcases List.mem_cons.mp h0mem with heq | htail
    · subst heq
      obtain ⟨e, he⟩ := redesInner_err_of REDES_SOCIAIS (strToLower h0) d hwrest
      refine ⟨e, ?_⟩
      unfold redesAnchorLoop
      rw [he]
    · rcases hres : redesInner REDES_SOCIAIS (strToLower h) d with e | d1
      · refine ⟨e, ?_⟩
        unfold redesAnchorLoop
        rw [hres]
      · obtain ⟨rp0, rp0mem, rp0match, rp0none⟩ := hwrest
        obtain ⟨e, he⟩ := ih d1
          ⟨h0, htail, rp0, rp0mem, rp0match,
            redesInner_none_pres REDES_SOCIAIS (strToLower h) d d1 hres _ rp0none⟩
        refine ⟨e, ?_⟩
        unfold redesAnchorLoop
        rw [hres]
        exact he

/-! ### The pure platform fold -/

theorem platFold_truthy (ps : List String) (hs : List String) (v : Option String)
    (hv : isFalsy v = false) : platFold ps hs v = v := by
  induction hs with
  | nil => rfl
  | cons h hs ih =>
    unfold platFold
    rw [hv]
    simpa using ih

theorem hasSubstr_empty_hay (pat : String) (h : pat ≠ "") : hasSubstr "" pat = false := by
  have h1 : hasSubstr "" pat = pat.toList.isEmpty := rfl
  rw [h1]
  rcases hp : pat.toList with _ | ⟨c, cs⟩
  · exact absurd (string_eq_empty_of_toList_nil pat hp) h
  · rfl

theorem platFold_none (ps : List String) (hs : List String)
    (hps : ∀ p ∈ ps, p ≠ "") :
    platFold ps hs none =
      (hs.map strToLower).find? (fun h => ps.any (fun p => hasSubstr h p)) := by
  induction hs with
  | nil => rfl
  | cons h hs ih =>
    by_cases hm : ps.any (fun p => hasSubstr (strToLower h) p) = true
    · have hne : strToLower h ≠ "" := by
        intro he
        obtain ⟨p, hpmem, hpsub⟩ := List.any_eq_true.mp hm
        rw [he, hasSubstr_empty_hay p (hps p hpmem)] at hpsub
        exact absurd hpsub (by simp)
      have hfalsy : isFalsy (some (strToLower h)) = false := by
        rcases hb : (strToLower h).isEmpty with _ | _
        · exact hb
        · exact absurd (String.isEmpty_iff (strToLower h) |>.mp hb) hne
      unfold platFold
      rw [show (isFalsy none && ps.any fun p => hasSubstr (strToLower h) p) = true by
        simp [isFalsy, hm]]
      simp only [if_true]
      rw [platFold_truthy ps hs _ hfalsy]
      simp [List.find?, hm]
    · simp only [Bool.not_eq_true] at hm
      unfold platFold
      rw [show (isFalsy none && ps.any fun p => hasSubstr (strToLower h) p) = false by
        simp [isFalsy, hm]]
      simp only [Bool.false_eq_true, if_false]
      rw [ih]
      simp [List.find?, hm]

/-! ### Address pass lemmas -/

theorem head?_eq_some_mem (l : List String) (t : String) (h : l.head? = some t) : t ∈ l := by
  rcases l with _ | ⟨a, as⟩
  · simp at h
  · simp at h
    rw [h]
    exact List.mem_cons_self _ _

theorem endLoop1_valid (es : List Node) (acc : List String)
    (hacc : ∀ x ∈ acc, validar_endereco x = true) :
    ∀ x ∈ endLoop1 es acc, validar_endereco x = true := by
  induction es generalizing acc with
  | nil => exact hacc
  | cons e es ih =>
    unfold endLoop1
    by_cases hv : validar_endereco (getTextSep e) = true
    · rw [if_pos hv]
      refine ih _ ?_
      intro x hx
      rcases List.mem_append.mp hx with hx | hx
      · exact hacc x hx
      · rw [List.mem_singleton.mp hx]
        exact hv
    · rw [if_neg hv]
      exact ih _ hacc

theorem endLoop2_valid (es : List Node) (acc : List String)
    (hacc : ∀ x ∈ acc, validar_endereco x = true) :
    ∀ x ∈ endLoop2 es acc, validar_endereco x = true := by
  induction es generalizing acc with
  | nil => exact hacc
  | cons e es ih =>
    unfold endLoop2
    by_cases hv : (validar_endereco (getTextSep e) && !memB acc (getTextSep e)) = true
    · rw [if_pos hv]
      refine ih _ ?_
      intro x hx
      rcases List.mem_append.mp hx with hx | hx
      · exact hacc x hx
      · rw [List.mem_singleton.mp hx]
        exact (Bool.and_eq_true .. |>.mp hv).1
    · rw [if_neg hv]
      exact ih _ hacc

theorem endLoop1_all_invalid (es : List Node) (acc : List String)
    (hall : ∀ e ∈ es, validar_endereco (getTextSep e) = false) :
    endLoop1 es acc = acc := by
  induction es generalizing acc with
  | nil => rfl
  | cons e es ih =>
    unfold endLoop1
    rw [hall e (List.mem_cons_self _ _)]
    simp only [Bool.false_eq_true, if_false]
    exact ih _ (fun x hx => hall x (List.mem_cons_of_mem _ hx))

theorem endLoop2_all_invalid (es : List Node) (acc : List String)
    (hall : ∀ e ∈ es, validar_endereco (getTextSep e) = false) :
    endLoop2 es acc = acc := by
  induction es generalizing acc with
  | nil => rfl
  | cons e es ih =>
    unfold endLoop2
    rw [hall e (List.mem_cons_self _ _)]
    simp only [Bool.false_and, Bool.false_eq_true, if_false]
    exact ih _ (fun x hx => hall x (List.mem_cons_of_mem _ hx))

theorem validar_reject (t : String) (h : tokenCount t < 5 ∨ hasDigitB t = false) :
    validar_endereco t = false := by
  unfold validar_endereco
  rcases h with h | h
  · have hle : ¬(5 ≤ tokenCount t) := by omega
    simp [hle]
  · unfold hasDigitB at h
    rw [h]
    simp

/-! ### C3 part 2: normalization of a token with only a leading plus -/

theorem filtered_all_digits (t : List Char)
    (h : t.all (fun c => !decide (c = '+')) = true) :
    (t.filter digitOrPlus).all Char.isDigit = true := by
  induction t with
  | nil => rfl
  | cons a t ih =>
    simp only [List.all_cons, Bool.and_eq_true] at h
    rcases hda : digitOrPlus a with _ | _
    · simp only [List.filter, hda]
      exact ih h.2
    · simp only [List.filter, hda, List.all_cons, Bool.and_eq_true]
      refine ⟨?_, ih h.2⟩
      have hne : ¬(a = '+') := by
        intro he
        rw [he] at h
        simp at h
      unfold digitOrPlus at hda
      simp [hne] at hda
      exact hda

theorem all_digits_normalized (l : List Char) (h : l.all Char.isDigit = true) :
    isNormalizedPhone (String.mk l) = true := by
  unfold isNormalizedPhone
  have hl : (String.mk l).toList = l := rfl
  rw [hl]
  rcases l with _ | ⟨c, cs⟩
  · rfl
  · simp only [List.all_cons, Bool.and_eq_true] at h
    simp [h.1, h.2]

theorem norm_plusOnlyLeading (s : String) (h : plusOnlyLeading s = true) :
    isNormalizedPhone (normalizePhone s) = true := by
  have hl : (normalizePhone s).toList = s.toList.filter digitOrPlus := rfl
  unfold plusOnlyLeading at h
  rcases hs : s.toList with _ | ⟨a, t⟩
  · unfold isNormalizedPhone
    rw [hl, hs]
    rfl
  · rw [hs] at h
    simp only [List.drop_succ_cons, List.drop_zero] at h
    rcases hda : digitOrPlus a with _ | _
    · have h1 : normalizePhone s = String.mk (t.filter digitOrPlus) := by
        unfold normalizePhone
        rw [hs]
        simp [List.filter, hda]
      rw [h1]
      exact all_digits_normalized _ (filtered_all_digits t h)
    · unfold isNormalizedPhone
      rw [hl, hs]
      simp only [List.filter, hda]
      unfold digitOrPlus at hda
      simp [hda, filtered_all_digits t h]

/-! ### Shape of a successful extraction -/

theorem extrair_ok_shape (page : List Node) (seed : Option (List (String × Option String)))
    (r : Contatos) (hok : extrair_contatos_estrategicos page seed = .ok r) :
    r.telefones =
      (extrair_emails page (extrair_telefones page
        (extrair_whatsapp page (initContatos seed)))).telefones ∧
    r.whatsapp =
      (extrair_emails page (extrair_telefones page
        (extrair_whatsapp page (initContatos seed)))).whatsapp ∧
    r.emails =
      (extrair_emails page (extrair_telefones page
        (extrair_whatsapp page (initContatos seed)))).emails ∧
    r.endereco = (endLoop2 (elementorSpans page) (endLoop1 (addressElems page) [])).head? := by
  unfold extrair_contatos_estrategicos at hok
  rcases hred : extrair_redes_sociais page
      (extrair_emails page (extrair_telefones page (extrair_whatsapp page (initContatos seed))))
    with e | c4
  · rw [hred] at hok
    simp at hok
  · rw [hred] at hok
    injection hok with h2
    obtain ⟨ht, hw, he, _, _⟩ := extrair_redes_sociais_ok page _ c4 hred
    rw [← h2]
    refine ⟨?_, ?_, ?_, ?_⟩
    · rw [(extrair_enderecos_fields page c4).1]
      exact ht
    · rw [(extrair_enderecos_fields page c4).2.1]
      exact hw
    · rw [(extrair_enderecos_fields page c4).2.2.1]
      exact he
    · exact (extrair_enderecos_fields page c4).2.2.2.2

theorem extrair_none_pre (page : List Node) :
    (extrair_emails page (extrair_telefones page
      (extrair_whatsapp page (initContatos none)))).redes_sociais = defaultRedes := by
  rw [(extrair_emails_extends page _).2.2.2.1, (extrair_telefones_extends page _).2.2.2.1,
    extrair_whatsapp_redes]
  rfl

theorem extrair_none_isOk (page : List Node) :
    (extrair_contatos_estrategicos page none).isOk = true := by
  obtain ⟨d2, hok, _⟩ := redesAnchorLoop_at (anchorHrefs page) defaultRedes "facebook"
    ["facebook.com"] none (by decide) (by decide) (by decide)
  unfold extrair_contatos_estrategicos extrair_redes_sociais
  rw [extrair_none_pre page, hok]
  rfl

/-! ### C1: the WhatsApp end-to-end scenario -/

/-- C1 counterexample: on a page whose whole visible text is
`WhatsApp: (11) 99999-9999`, the code builds the deep link from the
normalized token `11999999999` and never prepends the country code `55`,
so neither the claimed link nor the claimed phone entry appears. -/
theorem whatsapp_55prefix_counterexample :
    hasSubstr (pageText cexPage1) "WhatsApp: (11) 99999-9999" = true ∧
    (extrair_contatos_estrategicos cexPage1 none).isOk = true ∧
    (getOk (extrair_contatos_estrategicos cexPage1 none)).whatsapp ≠
      some "https://api.whatsapp.com/send?phone=5511999999999" ∧
    "5511999999999" ∉ (getOk (extrair_contatos_estrategicos cexPage1 none)).telefones := by
  decide

/-- C1 (corrected): for every page whose first WhatsApp-label match
captures the token `(11) 99999-9999`, the record carries the deep link
built from `11999999999` (no country code is added) and `11999999999`
is among the phones. -/
theorem whatsapp_scenario_amended (page : List Node)
    (hwa : waSearch (pageText page).toList = some "(11) 99999-9999".toList) :
    (extrair_contatos_estrategicos page none).isOk = true ∧
    (getOk (extrair_contatos_estrategicos page none)).whatsapp =
      some "https://api.whatsapp.com/send?phone=11999999999" ∧
    "11999999999" ∈ (getOk (extrair_contatos_estrategicos page none)).telefones := by
  have hok := extrair_none_isOk page
  rcases hr : extrair_contatos_estrategicos page none with e | r
  · rw [hr] at hok
    exact Bool.noConfusion hok
  · obtain ⟨htel, hwha, _, _⟩ := extrair_ok_shape page none r hr
    refine ⟨rfl, ?_, ?_⟩
    · simp only [getOk]
      rw [hwha, (extrair_emails_extends page _).1, (extrair_telefones_extends page _).1]
      unfold extrair_whatsapp
      rw [hwa]
      decide
    · simp only [getOk]
      rw [htel, (extrair_emails_extends page _).2.1]
      apply (extrair_telefones_extends page _).2.2.2.2.1
      unfold extrair_whatsapp
      rw [hwa]
      decide

/-- Witness for C1 at the concrete page `cexPage1`. -/
theorem whatsapp_scenario_amended_witness :
    waSearch (pageText cexPage1).toList = some "(11) 99999-9999".toList ∧
    ((extrair_contatos_estrategicos cexPage1 none).isOk = true ∧
     (getOk (extrair_contatos_estrategicos cexPage1 none)).whatsapp =
       some "https://api.whatsapp.com/send?phone=11999999999" ∧
     "11999999999" ∈ (getOk (extrair_contatos_estrategicos cexPage1 none)).telefones) :=
  ⟨by decide, whatsapp_scenario_amended cexPage1 (by decide)⟩

/-! ### C2: dedup and emptiness of the contact lists -/

/-- C2 counterexample: a page whose WhatsApp token holds no digit makes
the WhatsApp extractor append the empty string to the phone list. -/
theorem telefones_empty_entry_counterexample :
    (extrair_contatos_estrategicos cexPage2 none).isOk = true ∧
    "" ∈ (getOk (extrair_contatos_estrategicos cexPage2 none)).telefones := by
  decide

/-- C2 (corrected): every record produced by the extraction has
duplicate-free phone and e-mail lists and no empty e-mail entry; the
phone list can contain an empty entry only when the page's WhatsApp
token normalizes to the empty string (the unguarded WhatsApp append). -/
theorem contact_lists_dedup_amended (page : List Node)
    (seed : Option (List (String × Option String))) (r : Contatos)
    (hok : extrair_contatos_estrategicos page seed = .ok r) :
    r.telefones.Nodup ∧ r.emails.Nodup ∧ "" ∉ r.emails ∧
    ("" ∈ r.telefones → ∃ g, waSearch (pageText page).toList = some g ∧
      normalizePhone (String.mk g) = "") := by
  obtain ⟨htel, _, hem, _⟩ := extrair_ok_shape page seed r hok
  have h2 := extrair_telefones_extends page (extrair_whatsapp page (initContatos seed))
  have h3 := extrair_emails_extends page
    (extrair_telefones page (extrair_whatsapp page (initContatos seed)))
  have hc0em : (initContatos seed).emails = [] := rfl
  rcases hwas : waSearch (pageText page).toList with _ | g
  · have hc1 : (extrair_whatsapp page (initContatos seed)).telefones = [] := by
      unfold extrair_whatsapp
      rw [hwas]
      rfl
    refine ⟨?_, ?_, ?_, ?_⟩
    · rw [htel, h3.2.1]
      apply h2.2.2.2.2.2.1
      rw [hc1]
      exact List.nodup_nil
    · rw [hem]
      apply h3.2.2.2.2.1
      rw [h2.2.1, extrair_whatsapp_emails, hc0em]
      exact List.nodup_nil
    · intro hmem
      rw [hem] at hmem
      have := h3.2.2.2.2.2 hmem
      rw [h2.2.1, extrair_whatsapp_emails, hc0em] at this
      simp at this
    · intro hmem
      rw [htel, h3.2.1] at hmem
      have := h2.2.2.2.2.2.2.2 hmem
      rw [hc1] at this
      simp at this
  · have hc1 : (extrair_whatsapp page (initContatos seed)).telefones =
        [normalizePhone (String.mk g)] := by
      unfold extrair_whatsapp
      rw [hwas]
      rfl
    refine ⟨?_, ?_, ?_, ?_⟩
    · rw [htel, h3.2.1]
      apply h2.2.2.2.2.2.1
      rw [hc1]
      exact List.nodup_singleton _
    · rw [hem]
      apply h3.2.2.2.2.1
      rw [h2.2.1, extrair_whatsapp_emails, hc0em]
      exact List.nodup_nil
    · intro hmem
      rw [hem] at hmem
      have := h3.2.2.2.2.2 hmem
      rw [h2.2.1, extrair_whatsapp_emails, hc0em] at this
      simp at this
    · intro hmem
      rw [htel, h3.2.1] at hmem
      have := h2.2.2.2.2.2.2.2 hmem
      rw [hc1] at this
      exact ⟨g, rfl, (List.mem_singleton.mp this).symm⟩

/-- Witness for C2 at the empty page. -/
theorem contact_lists_dedup_amended_witness :
    extrair_contatos_estrategicos ([] : List Node) none =
      .ok (getOk (extrair_contatos_estrategicos ([] : List Node) none)) ∧
    ((getOk (extrair_contatos_estrategicos ([] : List Node) none)).telefones.Nodup ∧
     (getOk (extrair_contatos_estrategicos ([] : List Node) none)).emails.Nodup ∧
     "" ∉ (getOk (extrair_contatos_estrategicos ([] : List Node) none)).emails ∧
     ("" ∈ (getOk (extrair_contatos_estrategicos ([] : List Node) none)).telefones →
       ∃ g, waSearch (pageText ([] : List Node)).toList = some g ∧
         normalizePhone (String.mk g) = "")) :=
  ⟨by rfl, contact_lists_dedup_amended [] none _ (by rfl)⟩

/-! ### C3: shape of normalized phone strings -/

/-- C3 counterexample: the labeled text `tel: 1+2345678` is matched, and
normalization keeps the interior plus sign, so the stored phone string
is not digits-with-one-leading-plus. -/
theorem phone_interior_plus_counterexample :
    (extrair_contatos_estrategicos cexPage3 none).isOk = true ∧
    "1+2345678" ∈ (getOk (extrair_contatos_estrategicos cexPage3 none)).telefones ∧
    isNormalizedPhone "1+2345678" = false := by
  decide

/-- C3 (corrected): every phone string stored in a record consists of
digit and plus characters only; and whenever the matched token carries
no plus sign beyond its first character, the normalized string is
digits-only with at most one leading plus, as the claim states. -/
theorem phone_normalization_amended :
    (∀ (page : List Node) (seed : Option (List (String × Option String))) (r : Contatos),
      extrair_contatos_estrategicos page seed = .ok r →
      ∀ t ∈ r.telefones, t.toList.all digitOrPlus = true) ∧
    (∀ s : String, plusOnlyLeading s = true →
      isNormalizedPhone (normalizePhone s) = true) := by
  constructor
  · intro page seed r hok t ht
    obtain ⟨htel, _, _, _⟩ := extrair_ok_shape page seed r hok
    have h2 := extrair_telefones_extends page (extrair_whatsapp page (initContatos seed))
    have h3 := extrair_emails_extends page
      (extrair_telefones page (extrair_whatsapp page (initContatos seed)))
    rw [htel, h3.2.1] at ht
    refine h2.2.2.2.2.2.2.1 ?_ t ht
    intro u hu
    rcases hwas : waSearch (pageText page).toList with _ | g
    · unfold extrair_whatsapp at hu
      rw [hwas] at hu
      exact absurd hu (List.not_mem_nil u)
    · unfold extrair_whatsapp at hu
      rw [hwas] at hu
      have hu2 : u = normalizePhone (String.mk g) := List.mem_singleton.mp hu
      rw [hu2]
      exact normalizePhone_chars _
  · exact norm_plusOnlyLeading

/-- Witness for C3: a record entry made only of digit-or-plus
characters, and a well-formed token normalizing to a well-formed
number. -/
theorem phone_normalization_amended_witness :
    extrair_contatos_estrategicos cexPage3 none =
      .ok (getOk (extrair_contatos_estrategicos cexPage3 none)) ∧
    "1+2345678" ∈ (getOk (extrair_contatos_estrategicos cexPage3 none)).telefones ∧
    "1+2345678".toList.all digitOrPlus = true ∧
    plusOnlyLeading "+12 34" = true ∧
    isNormalizedPhone (normalizePhone "+12 34") = true :=
  ⟨by rfl, by decide,
   phone_normalization_amended.1 cexPage3 none _ (by rfl) "1+2345678" (by decide),
   by decide,
   phone_normalization_amended.2 "+12 34" (by decide)⟩

/-! ### C4: first social link wins -/

/-- C4 counterexample: with an upper-case first facebook href, the
stored entry is the lowercased href, which equals neither the first nor
the second href as they appear in the document. -/
theorem social_first_href_counterexample :
    (extrair_contatos_estrategicos cexPage4 none).isOk = true ∧
    anchorHrefs cexPage4 = ["https://FACEBOOK.COM/a", "https://facebook.com/b"] ∧
    hasSubstr (strToLower "https://FACEBOOK.COM/a") "facebook.com" = true ∧
    hasSubstr (strToLower "https://facebook.com/b") "facebook.com" = true ∧
    lookupKey (getOk (extrair_contatos_estrategicos cexPage4 none)).redes_sociais "facebook" =
      some (some "https://facebook.com/a") ∧
    some "https://facebook.com/a" ≠ some "https://FACEBOOK.COM/a" ∧
    some "https://facebook.com/a" ≠ some "https://facebook.com/b" := by
  decide

theorem social_aux (page : List Node) (k : String) (ps : List String)
    (hmem : (k, ps) ∈ REDES_SOCIAIS)
    (hv : lookupKey defaultRedes k = some none)
    (hps : ∀ p ∈ ps, p ≠ "") :
    (extrair_contatos_estrategicos page none).isOk = true ∧
    lookupKey (getOk (extrair_contatos_estrategicos page none)).redes_sociais k =
      some (((anchorHrefs page).map strToLower).find?
        (fun h => ps.any (fun p => hasSubstr h p))) := by
  obtain ⟨d2, hok, hval⟩ := redesAnchorLoop_at (anchorHrefs page) defaultRedes k ps none
    hmem (by decide) hv
  have hfull : extrair_contatos_estrategicos page none =
      .ok (extrair_enderecos page
        { extrair_emails page (extrair_telefones page
            (extrair_whatsapp page (initContatos none))) with
          redes_sociais := d2 }) := by
    unfold extrair_contatos_estrategicos extrair_redes_sociais
    rw [extrair_none_pre page, hok]
  rw [hfull]
  refine ⟨rfl, ?_⟩
  simp only [getOk]
  rw [show (extrair_enderecos page
      { extrair_emails page (extrair_telefones page
          (extrair_whatsapp page (initContatos none))) with
        redes_sociais := d2 }).redes_sociais = d2 from rfl]
  rw [hval, platFold_none ps _ hps]

/-- C4 (corrected): with the default seed, each platform's stored entry
equals the lowercase form of the first href whose lowercase form matches
that platform's patterns, in document order (absent when no href
matches); in particular a filled entry is never overwritten by a later
match. -/
theorem social_first_match_amended (page : List Node) (k : String) (ps : List String)
    (hmem : (k, ps) ∈ REDES_SOCIAIS) :
    (extrair_contatos_estrategicos page none).isOk = true ∧
    lookupKey (getOk (extrair_contatos_estrategicos page none)).redes_sociais k =
      some (((anchorHrefs page).map strToLower).find?
        (fun h => ps.any (fun p => hasSubstr h p))) := by
  have hm2 := hmem
  simp only [REDES_SOCIAIS, List.mem_cons, List.not_mem_nil, or_false,
    Prod.mk.injEq] at hm2
  rcases hm2 with ⟨rfl, rfl⟩ | ⟨rfl, rfl⟩ | ⟨rfl, rfl⟩ | ⟨rfl, rfl⟩
  · exact social_aux page _ _ hmem (by decide) (by decide)
  · exact social_aux page _ _ hmem (by decide) (by decide)
  · exact social_aux page _ _ hmem (by decide) (by decide)
  · exact social_aux page _ _ hmem (by decide) (by decide)

/-- Witness for C4 at the two-anchor facebook page. -/
theorem social_first_match_amended_witness :
    ("facebook", ["facebook.com"]) ∈ REDES_SOCIAIS ∧
    ((extrair_contatos_estrategicos cexPage4 none).isOk = true ∧
     lookupKey (getOk (extrair_contatos_estrategicos cexPage4 none)).redes_sociais "facebook" =
       some (((anchorHrefs cexPage4).map strToLower).find?
         (fun h => (["facebook.com"]).any (fun p => hasSubstr h p)))) :=
  ⟨by decide, social_first_match_amended cexPage4 "facebook" ["facebook.com"] (by decide)⟩

/-! ### C5: address validation rejects short or numberless candidates -/

/-- C5 (confirmed): a candidate with fewer than five tokens or no digit
is never stored as the address, and when every candidate the extractor
examines is of that kind the address stays `None`. -/
theorem address_rejection_confirmed (page : List Node)
    (seed : Option (List (String × Option String))) (r : Contatos)
    (hok : extrair_contatos_estrategicos page seed = .ok r) :
    (∀ t, (tokenCount t < 5 ∨ hasDigitB t = false) → r.endereco ≠ some t) ∧
    ((∀ t ∈ addressCandidates page, tokenCount t < 5 ∨ hasDigitB t = false) →
      r.endereco = none) := by
  obtain ⟨_, _, _, hend⟩ := extrair_ok_shape page seed r hok
  constructor
  · intro t hbad heq
    rw [hend] at heq
    have hmem := head?_eq_some_mem _ _ heq
    have hval : validar_endereco t = true :=
      endLoop2_valid _ _ (endLoop1_valid _ [] (by simp)) t hmem
    rw [validar_reject t hbad] at hval
    exact absurd hval (by simp)
  · intro hall
    rw [hend]
    have h1 : endLoop1 (addressElems page) [] = [] := by
      apply endLoop1_all_invalid
      intro e he
      apply validar_reject
      exact hall _ (List.mem_append_left _ (List.mem_map_of_mem getTextSep he))
    have h2 : endLoop2 (elementorSpans page) [] = [] := by
      apply endLoop2_all_invalid
      intro e he
      apply validar_reject
      exact hall _ (List.mem_append_right _ (List.mem_map_of_mem getTextSep he))
    rw [h1, h2]
    rfl

/-- Witness for C5: a page whose only candidate is `Rua 1` (two tokens)
ends with no stored address. -/
theorem address_rejection_confirmed_witness :
    extrair_contatos_estrategicos cexPage5 none =
      .ok (getOk (extrair_contatos_estrategicos cexPage5 none)) ∧
    (getOk (extrair_contatos_estrategicos cexPage5 none)).endereco = none :=
  ⟨by rfl, (address_rejection_confirmed cexPage5 none _ (by rfl)).2 (by decide)⟩

/-! ### C10: a seed missing a platform key raises a KeyError -/

/-- C10 (confirmed): when a non-empty social-links seed lacks one of the
four platform keys and some anchor href matches that platform, the
extraction aborts with the uncaught `KeyError` instead of returning a
record. -/
theorem missing_seed_key_error_confirmed (page : List Node)
    (seed : List (String × Option String)) (k : String) (ps : List String) (href : String)
    (hne : seed ≠ [])
    (hkp : (k, ps) ∈ REDES_SOCIAIS)
    (hmem : href ∈ anchorHrefs page)
    (hmatch : ps.any (fun p => hasSubstr (strToLower href) p) = true)
    (hmiss : lookupKey seed k = none) :
    (extrair_contatos_estrategicos page (some seed)).isOk = false := by
  have hemp : seed.isEmpty = false := by
    rcases seed with _ | _
    · exact absurd rfl hne
    · rfl
  have hpre : (extrair_emails page (extrair_telefones page
      (extrair_whatsapp page (initContatos (some seed))))).redes_sociais = seed := by
    rw [(extrair_emails_extends page _).2.2.2.1, (extrair_telefones_extends page _).2.2.2.1,
      extrair_whatsapp_redes]
    simp [initContatos, hemp]
  obtain ⟨e, he⟩ := redesAnchorLoop_err (anchorHrefs page) seed
    ⟨href, hmem, (k, ps), hkp, hmatch, hmiss⟩
  unfold extrair_contatos_estrategicos extrair_redes_sociais
  rw [hpre, he]
  rfl

/-- Witness for C10: seed `{facebook: None}` with an instagram anchor. -/
theorem missing_seed_key_error_confirmed_witness :
    cexSeed6 ≠ [] ∧ ("instagram", ["instagram.com"]) ∈ REDES_SOCIAIS ∧
    "https://instagram.com/x" ∈ anchorHrefs cexPage6 ∧
    (["instagram.com"]).any (fun p => hasSubstr (strToLower "https://instagram.com/x") p) = true ∧
    lookupKey cexSeed6 "instagram" = none ∧
    (extrair_contatos_estrategicos cexPage6 (some cexSeed6)).isOk = false :=
  ⟨by decide, by decide, by decide, by decide, by decide,
   missing_seed_key_error_confirmed cexPage6 cexSeed6 "instagram" ["instagram.com"]
     "https://instagram.com/x" (by decide) (by decide) (by decide) (by decide) (by decide)⟩
